import Mathlib

/-!
Shallow embedding of the scoring core of `src/stock_trading/screener.py`.

Conventions of the embedding:
* Python floats are modelled by `ℚ`; a possibly-NaN value (`pd.isna`) is
  modelled by `Option ℚ` with `none` playing the role of NaN/missing.
* pandas Series are modelled by `List ℚ` (or `List (Option ℚ)` for columns
  that may hold missing values); `iloc[i]` becomes `List.getD i`.
* Fallible functions return `Option`.
-/

set_option maxRecDepth 8000

namespace StockTrading

/-- `DEFAULT_WEIGHTS` dict from screener.py. -/
structure Weights where
  technical : ℚ
  fundamental : ℚ
deriving DecidableEq, Repr

def DEFAULT_WEIGHTS : Weights := { technical := 0.6, fundamental := 0.4 }

/-- `TECHNICAL_WEIGHTS` dict from screener.py (keys to weights). -/
def TECHNICAL_WEIGHTS (key : String) : ℚ :=
  if key = "rsi" then 0.20
  else if key = "macd" then 0.0
  else if key = "ma_crossover" then 0.30
  else if key = "bbands" then 0.0
  else if key = "momentum" then 0.50
  else 0

/-- `_score_rsi` from screener.py: score RSI on a [-1, +1] scale, NaN -> 0.0. -/
def score_rsi (rsi_value : Option ℚ) : ℚ :=
  match rsi_value with
  | none => 0.0
  | some v =>
    if v < 30 then 1.0
    else if v < 45 then 0.5
    else if v ≤ 55 then 0.0
    else if v ≤ 70 then -0.5
    else -1.0

/-- `_score_macd` from screener.py: score MACD on a [-1, +1] scale.
Any of macd/signal/hist NaN -> 0.0; NaN previous histogram treated as 0.0. -/
def score_macd (macd_val signal_val hist_val prev_hist_val : Option ℚ) : ℚ :=
  match macd_val, signal_val, hist_val with
  | some _, some _, some hist =>
    let prev := prev_hist_val.getD 0.0
    if prev ≤ 0 ∧ 0 < hist then 1.0
    else if 0 ≤ prev ∧ hist < 0 then -1.0
    else if 0 < hist ∧ prev < hist then 0.5
    else if hist < 0 ∧ hist < prev then -0.5
    else 0.0
  | _, _, _ => 0.0

/-- `_score_ma_crossover` from screener.py: score SMA 50/200 crossover. -/
def score_ma_crossover (price sma50 sma200 : Option ℚ) : ℚ :=
  match price, sma50, sma200 with
  | some p, some s50, some s200 =>
    if s200 < s50 then
      (if s50 < p then 1.0 else -0.25)
    else
      (if s50 < p then 0.5 else -1.0)
  | _, _, _ => 0.0

/-- `_score_bbands` from screener.py: score Bollinger Bands position. -/
def score_bbands (price bb_lower bb_mid bb_upper : Option ℚ) : ℚ :=
  match price, bb_lower, bb_mid, bb_upper with
  | some p, some lo, some _, some up =>
    if up = lo then 0.0
    else
      let position := (p - lo) / (up - lo)
      if position ≤ 0.0 then 1.0
      else if position ≤ 0.2 then 0.5
      else if position ≤ 0.8 then 0.0
      else if position < 1.0 then -0.5
      else -1.0
  | _, _, _, _ => 0.0

/-- Python builtin `max` on two floats (kernel-reducible form). -/
def pymax (a b : ℚ) : ℚ := if a < b then b else a

/-- Python builtin `min` on two floats (kernel-reducible form). -/
def pymin (a b : ℚ) : ℚ := if b < a then b else a

theorem pymax_eq_max (a b : ℚ) : pymax a b = max a b := by
  simp only [pymax, max_def]
  rcases lt_trichotomy a b with h | h | h
  · rw [if_pos h, if_pos h.le]
  · subst h; simp
  · rw [if_neg (not_lt.mpr h.le), if_neg (not_le.mpr h)]

theorem pymin_eq_min (a b : ℚ) : pymin a b = min a b := by
  simp only [pymin, min_def]
  rcases lt_trichotomy b a with h | h | h
  · rw [if_pos h, if_neg (not_le.mpr h)]
  · subst h; simp
  · rw [if_neg (not_lt.mpr h.le), if_pos h.le]

/-- Maximum of a list (Python `Series.max()` on a nonempty series). -/
def listMax : List ℚ → ℚ
  | [] => 0
  | x :: xs => xs.foldl pymax x

/-- Minimum of a list (Python `Series.min()` on a nonempty series). -/
def listMin : List ℚ → ℚ
  | [] => 0
  | x :: xs => xs.foldl pymin x

/-- Python slice `xs.iloc[a:b]`. -/
def windowSlice (xs : List ℚ) (a b : ℕ) : List ℚ :=
  (xs.drop a).take (b - a)

/-- `_detect_swings` from screener.py: for each `i` in `range(window, n - window)`
report `(i, highs[i])` when `highs[i]` equals the max of the inclusive window
`highs[i-window .. i+window]`, and symmetrically for lows with min. -/
def detect_swings (highs lows : List ℚ) (window : ℕ) :
    List (ℕ × ℚ) × List (ℕ × ℚ) :=
  let n := highs.length
  let idxs := List.range' window (n - window - window)
  (idxs.filterMap fun i =>
      if highs.getD i 0 = listMax (windowSlice highs (i - window) (i + window + 1)) then
        some (i, highs.getD i 0)
      else none,
   idxs.filterMap fun i =>
      if lows.getD i 0 = listMin (windowSlice lows (i - window) (i + window + 1)) then
        some (i, lows.getD i 0)
      else none)

/-- Python slice `l[-k:]` for `k ≥ 1`: the last `k` elements. -/
def lastN (k : ℕ) (l : List α) : List α := l.drop (l.length - k)

/-- The counter loop of `_score_momentum`: walk consecutive pairs of swing values,
counting (strict ups, strict downs); ties increment neither counter. -/
def swingMoves (vals : List ℚ) : ℕ × ℕ :=
  (vals.zip vals.tail).foldl
    (fun acc p =>
      if p.1 < p.2 then (acc.1 + 1, acc.2)
      else if p.2 < p.1 then (acc.1, acc.2 + 1)
      else acc)
    (0, 0)

/-- `_score_momentum` from screener.py. -/
def score_momentum (highs lows : List ℚ) (window n_swings : ℕ) : ℚ :=
  let sw := detect_swings highs lows window
  let swing_highs := sw.1
  let swing_lows := sw.2
  let min_points := n_swings + 1
  if swing_highs.length < min_points ∧ swing_lows.length < min_points then 0.0
  else
    let highMoves :=
      if min_points ≤ swing_highs.length then
        swingMoves ((lastN min_points swing_highs).map Prod.snd)
      else (0, 0)
    let lowMoves :=
      if min_points ≤ swing_lows.length then
        swingMoves ((lastN min_points swing_lows).map Prod.snd)
      else (0, 0)
    let hh_count := highMoves.1
    let lh_count := highMoves.2
    let hl_count := lowMoves.1
    let ll_count := lowMoves.2
    let net : ℤ := ((hh_count : ℤ) + (hl_count : ℤ)) - ((ll_count : ℤ) + (lh_count : ℤ))
    let max_net : ℕ := 2 * n_swings
    if 0 < max_net then pymax (-1.0) (pymin 1.0 ((net : ℚ) / (max_net : ℚ))) else 0.0

example : detect_swings [0,0,1,0,0] [5,5,5,5,5] 1 =
    ([(2, 1)], [(1,5),(2,5),(3,5)]) := by decide

/-! ### Lemmas about `pymax`/`pymin` folds and slices -/

theorem le_foldl_pymax (xs : List ℚ) (a : ℚ) : a ≤ xs.foldl pymax a := by
  induction xs generalizing a with
  | nil => exact le_refl a
  | cons x xs ih =>
    rw [List.foldl_cons]
    exact le_trans (by rw [pymax_eq_max]; exact le_max_left a x) (ih (pymax a x))

theorem mem_le_foldl_pymax {xs : List ℚ} {y : ℚ} (h : y ∈ xs) (a : ℚ) :
    y ≤ xs.foldl pymax a := by
  induction xs generalizing a with
  | nil => cases h
  | cons x xs ih =>
    rw [List.foldl_cons]
    rcases List.mem_cons.mp h with rfl | hmem
    · exact le_trans (by rw [pymax_eq_max]; exact le_max_right a y) (le_foldl_pymax xs _)
    · exact ih hmem _

theorem foldl_pymax_mem (xs : List ℚ) (a : ℚ) :
    xs.foldl pymax a = a ∨ xs.foldl pymax a ∈ xs := by
  induction xs generalizing a with
  | nil => exact Or.inl rfl
  | cons x xs ih =>
    rw [List.foldl_cons]
    rcases ih (pymax a x) with h | h
    · rw [h, pymax_eq_max, max_def]
      split
      · exact Or.inr (List.mem_cons_self x xs)
      · exact Or.inl rfl
    · exact Or.inr (List.mem_cons_of_mem x h)

theorem foldl_pymin_le (xs : List ℚ) (a : ℚ) : xs.foldl pymin a ≤ a := by
  induction xs generalizing a with
  | nil => exact le_refl a
  | cons x xs ih =>
    rw [List.foldl_cons]
    exact le_trans (ih (pymin a x)) (by rw [pymin_eq_min]; exact min_le_left a x)

theorem foldl_pymin_le_mem {xs : List ℚ} {y : ℚ} (h : y ∈ xs) (a : ℚ) :
    xs.foldl pymin a ≤ y := by
  induction xs generalizing a with
  | nil => cases h
  | cons x xs ih =>
    rw [List.foldl_cons]
    rcases List.mem_cons.mp h with rfl | hmem
    · exact le_trans (foldl_pymin_le xs _) (by rw [pymin_eq_min]; exact min_le_right a y)
    · exact ih hmem _

theorem foldl_pymin_mem (xs : List ℚ) (a : ℚ) :
    xs.foldl pymin a = a ∨ xs.foldl pymin a ∈ xs := by
  induction xs generalizing a with
  | nil => exact Or.inl rfl
  | cons x xs ih =>
    rw [List.foldl_cons]
    rcases ih (pymin a x) with h | h
    · rw [h, pymin_eq_min, min_def]
      split
      · exact Or.inl rfl
      · exact Or.inr (List.mem_cons_self x xs)
    · exact Or.inr (List.mem_cons_of_mem x h)

theorem le_listMax {xs : List ℚ} {y : ℚ} (h : y ∈ xs) : y ≤ listMax xs := by
  cases xs with
  | nil => cases h
  | cons x l =>
    rcases List.mem_cons.mp h with rfl | hmem
    · exact le_foldl_pymax l y
    · exact mem_le_foldl_pymax hmem x

theorem listMax_mem {xs : List ℚ} (h : xs ≠ []) : listMax xs ∈ xs := by
  cases xs with
  | nil => exact absurd rfl h
  | cons x l =>
    rcases foldl_pymax_mem l x with h' | h'
    · rw [listMax, h']; exact List.mem_cons_self x l
    · exact List.mem_cons_of_mem x h'

theorem listMin_le {xs : List ℚ} {y : ℚ} (h : y ∈ xs) : listMin xs ≤ y := by
  cases xs with
  | nil => cases h
  | cons x l =>
    rcases List.mem_cons.mp h with rfl | hmem
    · exact foldl_pymin_le l y
    · exact foldl_pymin_le_mem hmem x

theorem listMin_mem {xs : List ℚ} (h : xs ≠ []) : listMin xs ∈ xs := by
  cases xs with
  | nil => exact absurd rfl h
  | cons x l =>
    rcases foldl_pymin_mem l x with h' | h'
    · rw [listMin, h']; exact List.mem_cons_self x l
    · exact List.mem_cons_of_mem x h'

theorem getD_mem_windowSlice {xs : List ℚ} {a b j : ℕ}
    (ha : a ≤ j) (hb : j < b) (hlen : j < xs.length) :
    xs.getD j 0 ∈ windowSlice xs a b := by
  unfold windowSlice
  rw [List.mem_iff_getElem]
  have hlen1 : j - a < (xs.drop a).length := by
    rw [List.length_drop]; omega
  have hlen2 : j - a < ((xs.drop a).take (b - a)).length := by
    rw [List.length_take]; omega
  refine ⟨j - a, hlen2, ?_⟩
  rw [List.getElem_take, List.getElem_drop, List.getD_eq_getElem _ _ hlen]
  congr 1
  omega

theorem mem_windowSlice {xs : List ℚ} {a b : ℕ} {y : ℚ}
    (h : y ∈ windowSlice xs a b) :
    ∃ j, a ≤ j ∧ j < b ∧ j < xs.length ∧ y = xs.getD j 0 := by
  unfold windowSlice at h
  rw [List.mem_iff_getElem] at h
  obtain ⟨m, hm, he⟩ := h
  have hm' := hm
  rw [List.length_take, List.length_drop] at hm'
  refine ⟨a + m, by omega, by omega, by omega, ?_⟩
  rw [List.getD_eq_getElem _ _ (by omega : a + m < xs.length)]
  rw [List.getElem_take, List.getElem_drop] at he
  exact he.symm

/-- The window condition of `_detect_swings` for highs, stated pointwise. -/
theorem listMax_windowSlice_iff {xs : List ℚ} {i w : ℕ}
    (hwi : w ≤ i) (hin : i + w < xs.length) :
    xs.getD i 0 = listMax (windowSlice xs (i - w) (i + w + 1)) ↔
      ∀ j, i - w ≤ j → j ≤ i + w → xs.getD j 0 ≤ xs.getD i 0 := by
  have hself : xs.getD i 0 ∈ windowSlice xs (i - w) (i + w + 1) :=
    getD_mem_windowSlice (by omega) (by omega) (by omega)
  constructor
  · intro h j hj1 hj2
    have : xs.getD j 0 ∈ windowSlice xs (i - w) (i + w + 1) :=
      getD_mem_windowSlice hj1 (by omega) (by omega)
    rw [h]
    exact le_listMax this
  · intro h
    have hne : windowSlice xs (i - w) (i + w + 1) ≠ [] :=
      fun hnil => by rw [hnil] at hself; cases hself
    obtain ⟨j, hj1, hj2, _, hj4⟩ := mem_windowSlice (listMax_mem hne)
    have h1 : listMax (windowSlice xs (i - w) (i + w + 1)) ≤ xs.getD i 0 := by
      rw [hj4]; exact h j hj1 (by omega)
    exact le_antisymm (le_listMax hself) h1

/-- The window condition of `_detect_swings` for lows, stated pointwise. -/
theorem listMin_windowSlice_iff {xs : List ℚ} {i w : ℕ}
    (hwi : w ≤ i) (hin : i + w < xs.length) :
    xs.getD i 0 = listMin (windowSlice xs (i - w) (i + w + 1)) ↔
      ∀ j, i - w ≤ j → j ≤ i + w → xs.getD i 0 ≤ xs.getD j 0 := by
  have hself : xs.getD i 0 ∈ windowSlice xs (i - w) (i + w + 1) :=
    getD_mem_windowSlice (by omega) (by omega) (by omega)
  constructor
  · intro h j hj1 hj2
    have : xs.getD j 0 ∈ windowSlice xs (i - w) (i + w + 1) :=
      getD_mem_windowSlice hj1 (by omega) (by omega)
    rw [h]
    exact listMin_le this
  · intro h
    have hne : windowSlice xs (i - w) (i + w + 1) ≠ [] :=
      fun hnil => by rw [hnil] at hself; cases hself
    obtain ⟨j, hj1, hj2, _, hj4⟩ := mem_windowSlice (listMin_mem hne)
    have h1 : xs.getD i 0 ≤ listMin (windowSlice xs (i - w) (i + w + 1)) := by
      rw [hj4]; exact h j hj1 (by omega)
    exact le_antisymm h1 (listMin_le hself)

/-- The spec's characterisation of a swing high: an interior index whose High
is the maximum of High over the inclusive window `[i-window, i+window]`. -/
def isSwingHighAt (highs : List ℚ) (window i : ℕ) (v : ℚ) : Prop :=
  window ≤ i ∧ i + window < highs.length ∧ v = highs.getD i 0 ∧
    ∀ j, i - window ≤ j → j ≤ i + window → highs.getD j 0 ≤ v

/-- The spec's characterisation of a swing low: an interior index whose Low
is the minimum of Low over the inclusive window `[i-window, i+window]`. -/
def isSwingLowAt (lows : List ℚ) (window i : ℕ) (v : ℚ) : Prop :=
  window ≤ i ∧ i + window < lows.length ∧ v = lows.getD i 0 ∧
    ∀ j, i - window ≤ j → j ≤ i + window → v ≤ lows.getD j 0

/-- C2: `detect_swings` returns exactly the interior indices whose High (resp. Low)
is the extremum of the inclusive window `[i-window, i+window]`, paired with the
value, in strictly increasing index order; no swing lies within `window` bars of a
boundary, and a series with `n ≤ 2*window` yields two empty lists. -/
theorem detect_swings_spec (highs lows : List ℚ) (window : ℕ)
    (hlen : lows.length = highs.length) :
    (∀ i v, (i, v) ∈ (detect_swings highs lows window).1 ↔ isSwingHighAt highs window i v) ∧
    (∀ i v, (i, v) ∈ (detect_swings highs lows window).2 ↔ isSwingLowAt lows window i v) ∧
    (detect_swings highs lows window).1.Pairwise (fun p q => p.1 < q.1) ∧
    (detect_swings highs lows window).2.Pairwise (fun p q => p.1 < q.1) ∧
    (highs.length ≤ 2 * window →
      (detect_swings highs lows window).1 = [] ∧ (detect_swings highs lows window).2 = []) := by
  have hhigh : (detect_swings highs lows window).1 =
      (List.range' window (highs.length - window - window)).filterMap (fun i =>
        if highs.getD i 0 = listMax (windowSlice highs (i - window) (i + window + 1)) then
          some (i, highs.getD i 0)
        else none) := rfl
  have hlow : (detect_swings highs lows window).2 =
      (List.range' window (highs.length - window - window)).filterMap (fun i =>
        if lows.getD i 0 = listMin (windowSlice lows (i - window) (i + window + 1)) then
          some (i, lows.getD i 0)
        else none) := rfl
  have hfstHigh : ∀ a (x : ℕ × ℚ),
      (if highs.getD a 0 = listMax (windowSlice highs (a - window) (a + window + 1)) then
        some (a, highs.getD a 0) else none) = some x → x.1 = a := by
    intro a x h
    by_cases hc : highs.getD a 0 = listMax (windowSlice highs (a - window) (a + window + 1))
    · rw [if_pos hc] at h; cases h; rfl
    · rw [if_neg hc] at h; cases h
  have hfstLow : ∀ a (x : ℕ × ℚ),
      (if lows.getD a 0 = listMin (windowSlice lows (a - window) (a + window + 1)) then
        some (a, lows.getD a 0) else none) = some x → x.1 = a := by
    intro a x h
    by_cases hc : lows.getD a 0 = listMin (windowSlice lows (a - window) (a + window + 1))
    · rw [if_pos hc] at h; cases h; rfl
    · rw [if_neg hc] at h; cases h
  refine ⟨?_, ?_, ?_, ?_, ?_⟩
  · intro i v
    rw [hhigh, List.mem_filterMap]
    constructor
    · rintro ⟨a, ha, hfa⟩
      rw [List.mem_range'_1] at ha
      by_cases hc : highs.getD a 0 = listMax (windowSlice highs (a - window) (a + window + 1))
      · rw [if_pos hc] at hfa
        simp only [Option.some.injEq, Prod.mk.injEq] at hfa
        obtain ⟨rfl, rfl⟩ := hfa
        refine ⟨by omega, by omega, rfl, ?_⟩
        exact (listMax_windowSlice_iff (by omega) (by omega)).mp hc
      · rw [if_neg hc] at hfa; cases hfa
    · rintro ⟨h1, h2, rfl, h4⟩
      refine ⟨i, ?_, ?_⟩
      · rw [List.mem_range'_1]; omega
      · rw [if_pos ((listMax_windowSlice_iff h1 h2).mpr h4)]
  · intro i v
    rw [hlow, List.mem_filterMap]
    constructor
    · rintro ⟨a, ha, hfa⟩
      rw [List.mem_range'_1] at ha
      by_cases hc : lows.getD a 0 = listMin (windowSlice lows (a - window) (a + window + 1))
      · rw [if_pos hc] at hfa
        simp only [Option.some.injEq, Prod.mk.injEq] at hfa
        obtain ⟨rfl, rfl⟩ := hfa
        refine ⟨by omega, by omega, rfl, ?_⟩
        exact (listMin_windowSlice_iff (by omega) (by omega)).mp hc
      · rw [if_neg hc] at hfa; cases hfa
    · rintro ⟨h1, h2, rfl, h4⟩
      refine ⟨i, ?_, ?_⟩
      · rw [List.mem_range'_1]; omega
      · rw [if_pos ((listMin_windowSlice_iff h1 (by omega)).mpr h4)]
  · rw [hhigh]
    refine List.pairwise_filterMap.mpr ?_
    refine (List.pairwise_lt_range' window _ 1 (by omega)).imp ?_
    intro a a' hab x hx y hy
    rw [Option.mem_def] at hx hy
    rw [hfstHigh a x hx, hfstHigh a' y hy]
    exact hab
  · rw [hlow]
    refine List.pairwise_filterMap.mpr ?_
    refine (List.pairwise_lt_range' window _ 1 (by omega)).imp ?_
    intro a a' hab x hx y hy
    rw [Option.mem_def] at hx hy
    rw [hfstLow a x hx, hfstLow a' y hy]
    exact hab
  · intro hle
    have h0 : highs.length - window - window = 0 := by omega
    rw [hhigh, hlow, h0]
    exact ⟨rfl, rfl⟩

/-- Witness for C2 at a concrete input. -/
theorem detect_swings_spec_witness :
    (∀ i v, (i, v) ∈ (detect_swings [0,0,1,0,0] [5,5,5,5,5] 1).1 ↔
      isSwingHighAt [0,0,1,0,0] 1 i v) ∧
    (∀ i v, (i, v) ∈ (detect_swings [0,0,1,0,0] [5,5,5,5,5] 1).2 ↔
      isSwingLowAt [5,5,5,5,5] 1 i v) ∧
    (detect_swings [0,0,1,0,0] [5,5,5,5,5] 1).1.Pairwise (fun p q => p.1 < q.1) ∧
    (detect_swings [0,0,1,0,0] [5,5,5,5,5] 1).2.Pairwise (fun p q => p.1 < q.1) ∧
    (([0,0,1,0,0] : List ℚ).length ≤ 2 * 1 →
      (detect_swings [0,0,1,0,0] [5,5,5,5,5] 1).1 = [] ∧
      (detect_swings [0,0,1,0,0] [5,5,5,5,5] 1).2 = []) :=
  detect_swings_spec [0,0,1,0,0] [5,5,5,5,5] 1 (by decide)

/-! ### C1: momentum scoring -/

/-- Number of consecutive pairs in which the later value strictly exceeds the former. -/
def countUp (vals : List ℚ) : ℕ :=
  (vals.zip vals.tail).countP fun p => decide (p.1 < p.2)

/-- Number of consecutive pairs in which the later value is strictly exceeded by the former. -/
def countDown (vals : List ℚ) : ℕ :=
  (vals.zip vals.tail).countP fun p => decide (p.2 < p.1)

theorem foldl_moves (ps : List (ℚ × ℚ)) (acc : ℕ × ℕ) :
    ps.foldl
      (fun acc p =>
        if p.1 < p.2 then (acc.1 + 1, acc.2)
        else if p.2 < p.1 then (acc.1, acc.2 + 1)
        else acc)
      acc =
    (acc.1 + ps.countP (fun p => decide (p.1 < p.2)),
     acc.2 + ps.countP (fun p => decide (p.2 < p.1))) := by
  induction ps generalizing acc with
  | nil => simp
  | cons p ps ih =>
    rw [List.foldl_cons, ih, List.countP_cons, List.countP_cons]
    simp only [decide_eq_true_eq]
    rcases lt_trichotomy p.1 p.2 with h | h | h
    · have h' : ¬p.2 < p.1 := not_lt.mpr h.le
      simp only [if_pos h, if_neg h', Prod.mk.injEq]
      refine ⟨by omega, by omega⟩
    · have h1 : ¬p.1 < p.2 := by rw [h]; exact lt_irrefl _
      have h2 : ¬p.2 < p.1 := by rw [h]; exact lt_irrefl _
      simp only [if_neg h1, if_neg h2, Prod.mk.injEq]
      refine ⟨by omega, by omega⟩
    · have h' : ¬p.1 < p.2 := not_lt.mpr h.le
      simp only [if_neg h', if_pos h, Prod.mk.injEq]
      refine ⟨by omega, by omega⟩

theorem swingMoves_eq (vals : List ℚ) :
    swingMoves vals = (countUp vals, countDown vals) := by
  unfold swingMoves countUp countDown
  rw [foldl_moves]
  simp

theorem length_lastN_le (k : ℕ) (l : List α) : (lastN k l).length ≤ k := by
  simp only [lastN, List.length_drop]
  omega

theorem countUp_of_short {vals : List ℚ} (h : vals.length ≤ 1) : countUp vals = 0 := by
  cases vals with
  | nil => rfl
  | cons x xs =>
    cases xs with
    | nil => rfl
    | cons y ys => simp at h

theorem countDown_of_short {vals : List ℚ} (h : vals.length ≤ 1) : countDown vals = 0 := by
  cases vals with
  | nil => rfl
  | cons x xs =>
    cases xs with
    | nil => rfl
    | cons y ys => simp at h

theorem ite_swingMoves_fst (c : Prop) [Decidable c] (v : List ℚ) :
    (if c then swingMoves v else ((0, 0) : ℕ × ℕ)).1 = if c then countUp v else 0 := by
  split <;> simp [swingMoves_eq]

theorem ite_swingMoves_snd (c : Prop) [Decidable c] (v : List ℚ) :
    (if c then swingMoves v else ((0, 0) : ℕ × ℕ)).2 = if c then countDown v else 0 := by
  split <;> simp [swingMoves_eq]

/-- C1: `_score_momentum` returns 0 when neither swing list has `n_swings+1` points;
otherwise it counts strict rises and falls over the most recent `n_swings+1` points
of each sufficiently long swing list and returns
`net / (2*n_swings)` clamped to `[-1, 1]`, with
`net = (higher_high + higher_low) - (lower_low + lower_high)` and the denominator
the constant `2*n_swings`. -/
theorem score_momentum_spec (highs lows : List ℚ) (window n_swings : ℕ) :
    ((detect_swings highs lows window).1.length < n_swings + 1 ∧
        (detect_swings highs lows window).2.length < n_swings + 1 →
      score_momentum highs lows window n_swings = 0) ∧
    (n_swings + 1 ≤ (detect_swings highs lows window).1.length ∨
        n_swings + 1 ≤ (detect_swings highs lows window).2.length →
      score_momentum highs lows window n_swings =
        max (-1 : ℚ) (min 1
          (((((if n_swings + 1 ≤ (detect_swings highs lows window).1.length then
                  countUp ((lastN (n_swings + 1) (detect_swings highs lows window).1).map Prod.snd)
                else 0) +
              (if n_swings + 1 ≤ (detect_swings highs lows window).2.length then
                  countUp ((lastN (n_swings + 1) (detect_swings highs lows window).2).map Prod.snd)
                else 0) : ℕ) : ℚ) -
           (((if n_swings + 1 ≤ (detect_swings highs lows window).2.length then
                  countDown ((lastN (n_swings + 1) (detect_swings highs lows window).2).map Prod.snd)
                else 0) +
              (if n_swings + 1 ≤ (detect_swings highs lows window).1.length then
                  countDown ((lastN (n_swings + 1) (detect_swings highs lows window).1).map Prod.snd)
                else 0) : ℕ) : ℚ)) / ((2 * n_swings : ℕ) : ℚ)))) := by
  constructor
  · intro hgate
    simp only [score_momentum]
    rw [if_pos hgate]
    norm_num
  · intro hor
    have hgate : ¬((detect_swings highs lows window).1.length < n_swings + 1 ∧
        (detect_swings highs lows window).2.length < n_swings + 1) := by omega
    simp only [score_momentum]
    rw [if_neg hgate]
    simp only [ite_swingMoves_fst, ite_swingMoves_snd]
    rcases Nat.eq_zero_or_pos n_swings with hz | hpos
    · subst hz
      have h1 : ∀ l : List (ℕ × ℚ), countUp ((lastN 1 l).map Prod.snd) = 0 := fun l =>
        countUp_of_short (by rw [List.length_map]; exact length_lastN_le 1 l)
      have h2 : ∀ l : List (ℕ × ℚ), countDown ((lastN 1 l).map Prod.snd) = 0 := fun l =>
        countDown_of_short (by rw [List.length_map]; exact length_lastN_le 1 l)
      simp only [Nat.zero_add, h1, h2, ite_self]
      norm_num
    · rw [if_pos (by omega : 0 < 2 * n_swings)]
      rw [pymax_eq_max, pymin_eq_min]
      push_cast
      norm_num
/-- Witness for C1 at a concrete input where both swing lists are long enough. -/
theorem score_momentum_spec_witness :
    score_momentum [0,1,0,2,0] [5,5,5,5,5] 1 1 = 1/2 := by
  have hlen : 1 + 1 ≤ (detect_swings [0,1,0,2,0] [5,5,5,5,5] 1).1.length := by decide
  have h := (score_momentum_spec [0,1,0,2,0] [5,5,5,5,5] 1 1).2 (Or.inl hlen)
  rw [h]
  have e1 : (detect_swings [0,1,0,2,0] [5,5,5,5,5] 1).1 = [(1,1),(3,2)] := by decide
  have e2 : (detect_swings [0,1,0,2,0] [5,5,5,5,5] 1).2 = [(1,5),(2,5),(3,5)] := by decide
  rw [e1, e2]
  norm_num [countUp, countDown, lastN, max_def, min_def]

/-! ### C8: Bollinger Bands scorer totality and bracket table -/

/-- C8: `_score_bbands` is total: any NaN input yields 0.0; equal bands yield 0.0
without the position quotient; distinct bands yield the bracket value of
`position = (price - lower) / (upper - lower)`. -/
theorem score_bbands_spec (price bb_lower bb_mid bb_upper : Option ℚ) :
    ((price = none ∨ bb_lower = none ∨ bb_mid = none ∨ bb_upper = none) →
      score_bbands price bb_lower bb_mid bb_upper = 0) ∧
    (∀ p lo m up : ℚ, price = some p → bb_lower = some lo → bb_mid = some m →
      bb_upper = some up →
      (up = lo → score_bbands price bb_lower bb_mid bb_upper = 0) ∧
      (up ≠ lo →
        score_bbands price bb_lower bb_mid bb_upper =
          if (p - lo) / (up - lo) ≤ 0 then 1
          else if (p - lo) / (up - lo) ≤ 0.2 then 0.5
          else if (p - lo) / (up - lo) ≤ 0.8 then 0
          else if (p - lo) / (up - lo) < 1 then -0.5
          else -1)) := by
  constructor
  · intro h
    cases price <;> cases bb_lower <;> cases bb_mid <;> cases bb_upper <;>
      simp_all [score_bbands] <;> norm_num
  · intro p lo m up hp hlo hm hup
    subst hp; subst hlo; subst hm; subst hup
    constructor
    · intro he
      simp only [score_bbands]
      rw [if_pos he]
      norm_num
    · intro hne
      simp only [score_bbands]
      rw [if_neg hne]
      norm_num

/-- Witness for C8 at the spec's concrete test vectors. -/
theorem score_bbands_spec_witness :
    score_bbands none (some 100) (some 110) (some 120) = 0 ∧
    score_bbands (some 100) (some 100) (some 100) (some 100) = 0 ∧
    score_bbands (some 95) (some 100) (some 110) (some 120) =
      (if ((95:ℚ) - 100) / (120 - 100) ≤ 0 then 1
       else if ((95:ℚ) - 100) / (120 - 100) ≤ 0.2 then 0.5
       else if ((95:ℚ) - 100) / (120 - 100) ≤ 0.8 then 0
       else if ((95:ℚ) - 100) / (120 - 100) < 1 then -0.5
       else -1) :=
  ⟨(score_bbands_spec none (some 100) (some 110) (some 120)).1 (Or.inl rfl),
   ((score_bbands_spec (some 100) (some 100) (some 100) (some 100)).2
      100 100 100 100 rfl rfl rfl rfl).1 rfl,
   ((score_bbands_spec (some 95) (some 100) (some 110) (some 120)).2
      95 100 110 120 rfl rfl rfl rfl).2 (by norm_num)⟩

/-! ### Per-signal scorer bounds -/

theorem score_rsi_bounds (x : Option ℚ) : -1 ≤ score_rsi x ∧ score_rsi x ≤ 1 := by
  cases x with
  | none => norm_num [score_rsi]
  | some v =>
    simp only [score_rsi]
    split_ifs <;> norm_num

theorem score_macd_bounds (a b c d : Option ℚ) :
    -1 ≤ score_macd a b c d ∧ score_macd a b c d ≤ 1 := by
  cases a <;> cases b <;> cases c <;> simp only [score_macd] <;>
    first
      | (split_ifs <;> norm_num)
      | norm_num

theorem score_ma_crossover_bounds (a b c : Option ℚ) :
    -1 ≤ score_ma_crossover a b c ∧ score_ma_crossover a b c ≤ 1 := by
  cases a <;> cases b <;> cases c <;> simp only [score_ma_crossover] <;>
    first
      | (split_ifs <;> norm_num)
      | norm_num

theorem score_bbands_bounds (a b c d : Option ℚ) :
    -1 ≤ score_bbands a b c d ∧ score_bbands a b c d ≤ 1 := by
  cases a <;> cases b <;> cases c <;> cases d <;> simp only [score_bbands] <;>
    first
      | (split_ifs <;> norm_num)
      | norm_num

theorem score_momentum_bounds (highs lows : List ℚ) (window n_swings : ℕ) :
    -1 ≤ score_momentum highs lows window n_swings ∧
      score_momentum highs lows window n_swings ≤ 1 := by
  simp only [score_momentum]
  split
  · norm_num
  · split
    · have h10 : (1.0 : ℚ) = 1 := by norm_num
      rw [pymax_eq_max, pymin_eq_min, h10]
      exact ⟨le_max_left _ _, max_le (by norm_num) (min_le_left _ _)⟩
    · norm_num

/-! ### Technical score aggregator (compute_technical_score) -/

/-- One OHLCV bar of a price DataFrame (columns Open/High/Low/Close/Volume/Adj Close). -/
structure Bar where
  opn : ℚ
  high : ℚ
  low : ℚ
  close : ℚ
  volume : ℚ
  adj_close : ℚ
deriving DecidableEq, Repr

/-- Abstract interface to the pandas_ta indicator library (an external collaborator
of screener.py): each field returns the indicator value that
`compute_technical_score` extracts at the latest bar of the close series, with
`none` standing for NaN or an absent indicator frame. -/
structure TA where
  rsiVal : List ℚ → Option ℚ
  macdVal : List ℚ → Option ℚ
  macdSignalVal : List ℚ → Option ℚ
  macdHistVal : List ℚ → Option ℚ
  macdPrevHistVal : List ℚ → Option ℚ
  sma50Val : List ℚ → Option ℚ
  sma200Val : List ℚ → Option ℚ
  bbLowerVal : List ℚ → Option ℚ
  bbMidVal : List ℚ → Option ℚ
  bbUpperVal : List ℚ → Option ℚ

/-- The result dict of `compute_technical_score`: it always carries exactly the keys
price, rsi_value, rsi_score, macd_score, ma_crossover_score, bbands_score,
momentum_score, technical_score. -/
structure TechResult where
  price : ℚ
  rsi_value : Option ℚ
  rsi_score : ℚ
  macd_score : ℚ
  ma_crossover_score : ℚ
  bbands_score : ℚ
  momentum_score : ℚ
  technical_score : ℚ
deriving DecidableEq, Repr

/-- `compute_technical_score` from screener.py, parametric in the indicator
library `ta`. -/
def compute_technical_score (ta : TA) (df : List Bar) : Option TechResult :=
  if df.length < 26 then none
  else
    let close := df.map Bar.close
    let latest := df.length - 1
    let rsi_val := ta.rsiVal close
    let price := close.getD latest 0
    let macd_val := ta.macdVal close
    let signal_val := ta.macdSignalVal close
    let hist_val := ta.macdHistVal close
    let prev_hist_val := ta.macdPrevHistVal close
    let sma50_val := ta.sma50Val close
    let sma200_val := ta.sma200Val close
    let bb_lower := ta.bbLowerVal close
    let bb_mid := ta.bbMidVal close
    let bb_upper := ta.bbUpperVal close
    let rsi_score := score_rsi rsi_val
    let macd_score := score_macd macd_val signal_val hist_val prev_hist_val
    let ma_score := score_ma_crossover (some price) sma50_val sma200_val
    let bb_score := score_bbands (some price) bb_lower bb_mid bb_upper
    let mom_score := score_momentum (df.map Bar.high) (df.map Bar.low) 5 4
    let raw :=
      TECHNICAL_WEIGHTS "rsi" * rsi_score
      + TECHNICAL_WEIGHTS "macd" * macd_score
      + TECHNICAL_WEIGHTS "ma_crossover" * ma_score
      + TECHNICAL_WEIGHTS "bbands" * bb_score
      + TECHNICAL_WEIGHTS "momentum" * mom_score
    some
      { price := price
        rsi_value := rsi_val
        rsi_score := rsi_score
        macd_score := macd_score
        ma_crossover_score := ma_score
        bbands_score := bb_score
        momentum_score := mom_score
        technical_score := (raw + 1.0) / 2.0 }

/-- C6: `compute_technical_score` returns `none` exactly on series shorter than 26
bars, and for series of 26 or more bars returns a populated `TechResult` record
(which by its type carries all eight required keys). The embedding is a total
function, so no exception is possible. -/
theorem compute_technical_score_length (ta : TA) (df : List Bar) :
    (df.length < 26 → compute_technical_score ta df = none) ∧
    (26 ≤ df.length → ∃ r : TechResult, compute_technical_score ta df = some r) := by
  constructor
  · intro h
    simp only [compute_technical_score]
    rw [if_pos h]
  · intro h
    simp only [compute_technical_score]
    rw [if_neg (by omega)]
    exact ⟨_, rfl⟩

/-- A trivial indicator oracle: every indicator is NaN. -/
def taNone : TA :=
  { rsiVal := fun _ => none
    macdVal := fun _ => none
    macdSignalVal := fun _ => none
    macdHistVal := fun _ => none
    macdPrevHistVal := fun _ => none
    sma50Val := fun _ => none
    sma200Val := fun _ => none
    bbLowerVal := fun _ => none
    bbMidVal := fun _ => none
    bbUpperVal := fun _ => none }

/-- A 26-bar constant price series. -/
def df26 : List Bar := List.replicate 26 ⟨100, 101, 99, 100, 1000, 100⟩

/-- Witness for C6: a 25-bar series yields none; the 26-bar series yields a record. -/
theorem compute_technical_score_length_witness :
    compute_technical_score taNone (List.replicate 25 ⟨100, 101, 99, 100, 1000, 100⟩) = none ∧
    ∃ r : TechResult, compute_technical_score taNone df26 = some r :=
  ⟨(compute_technical_score_length taNone _).1 (by simp),
   (compute_technical_score_length taNone df26).2 (by simp [df26])⟩

theorem TW_rsi : TECHNICAL_WEIGHTS "rsi" = 0.20 := by
  simp [TECHNICAL_WEIGHTS]

theorem TW_macd : TECHNICAL_WEIGHTS "macd" = 0.0 := by
  simp [TECHNICAL_WEIGHTS, (show "macd" ≠ "rsi" by decide)]

theorem TW_ma : TECHNICAL_WEIGHTS "ma_crossover" = 0.30 := by
  simp [TECHNICAL_WEIGHTS, (show "ma_crossover" ≠ "rsi" by decide),
    (show "ma_crossover" ≠ "macd" by decide)]

theorem TW_bb : TECHNICAL_WEIGHTS "bbands" = 0.0 := by
  simp [TECHNICAL_WEIGHTS, (show "bbands" ≠ "rsi" by decide),
    (show "bbands" ≠ "macd" by decide), (show "bbands" ≠ "ma_crossover" by decide)]

theorem TW_mom : TECHNICAL_WEIGHTS "momentum" = 0.50 := by
  simp [TECHNICAL_WEIGHTS, (show "momentum" ≠ "rsi" by decide),
    (show "momentum" ≠ "macd" by decide), (show "momentum" ≠ "ma_crossover" by decide),
    (show "momentum" ≠ "bbands" by decide)]

theorem ts_bounds_aux {a c e : ℚ} (ha1 : -1 ≤ a) (ha2 : a ≤ 1)
    (hc1 : -1 ≤ c) (hc2 : c ≤ 1) (he1 : -1 ≤ e) (he2 : e ≤ 1) (b d : ℚ) :
    0 ≤ (0.20 * a + 0.0 * b + 0.30 * c + 0.0 * d + 0.50 * e + 1.0) / 2.0 ∧
    (0.20 * a + 0.0 * b + 0.30 * c + 0.0 * d + 0.50 * e + 1.0) / 2.0 ≤ 1 := by
  norm_num
  constructor <;> linarith

/-- C5: for every accepted series the returned technical score is the fixed
weighted sum `(0.20*rsi + 0.0*macd + 0.30*ma + 0.0*bbands + 0.50*momentum + 1)/2`,
lies in `[0,1]`, and is unchanged under any change of the MACD and Bollinger
indicator values (they are computed and reported but carry zero weight). -/
theorem compute_technical_score_weighting (ta : TA) (df : List Bar) (r : TechResult)
    (h : compute_technical_score ta df = some r) :
    r.technical_score =
      (0.20 * r.rsi_score + 0.0 * r.macd_score + 0.30 * r.ma_crossover_score +
        0.0 * r.bbands_score + 0.50 * r.momentum_score + 1) / 2 ∧
    0 ≤ r.technical_score ∧ r.technical_score ≤ 1 ∧
    (∀ ta2 : TA, ta2.rsiVal = ta.rsiVal → ta2.sma50Val = ta.sma50Val →
      ta2.sma200Val = ta.sma200Val →
      ∃ r2 : TechResult, compute_technical_score ta2 df = some r2 ∧
        r2.technical_score = r.technical_score) := by
  have wrsi := TW_rsi
  have wmacd := TW_macd
  have wma := TW_ma
  have wbb := TW_bb
  have wmom := TW_mom
  simp only [compute_technical_score] at h
  by_cases hlen : df.length < 26
  · rw [if_pos hlen] at h
    cases h
  · rw [if_neg hlen] at h
    injection h with h2
    subst h2
    dsimp only
    rw [wrsi, wmacd, wma, wbb, wmom]
    obtain ⟨b1a, b1b⟩ := score_rsi_bounds (ta.rsiVal (df.map Bar.close))
    obtain ⟨b3a, b3b⟩ := score_ma_crossover_bounds
      (some ((df.map Bar.close).getD (df.length - 1) 0))
      (ta.sma50Val (df.map Bar.close)) (ta.sma200Val (df.map Bar.close))
    obtain ⟨b5a, b5b⟩ := score_momentum_bounds (df.map Bar.high) (df.map Bar.low) 5 4
    refine ⟨by ring, (ts_bounds_aux b1a b1b b3a b3b b5a b5b _ _).1,
      (ts_bounds_aux b1a b1b b3a b3b b5a b5b _ _).2, ?_⟩
    · intro ta2 h1 h2 h3
      obtain ⟨r2, h4⟩ : ∃ r2, compute_technical_score ta2 df = some r2 := by
        simp only [compute_technical_score]
        rw [if_neg hlen]
        exact ⟨_, rfl⟩
      refine ⟨r2, h4, ?_⟩
      simp only [compute_technical_score] at h4
      rw [if_neg hlen] at h4
      injection h4 with h4
      subst h4
      dsimp only
      rw [wrsi, wmacd, wma, wbb, wmom, h1, h2, h3]
      ring

/-- A single flat bar at price level `q`. -/
def mkBar (q : ℚ) : Bar := ⟨q, q, q, q, q, q⟩

/-- A 26-bar strictly increasing price series. -/
def dfInc : List Bar :=
  [mkBar 0, mkBar 1, mkBar 2, mkBar 3, mkBar 4, mkBar 5, mkBar 6, mkBar 7,
   mkBar 8, mkBar 9, mkBar 10, mkBar 11, mkBar 12, mkBar 13, mkBar 14, mkBar 15,
   mkBar 16, mkBar 17, mkBar 18, mkBar 19, mkBar 20, mkBar 21, mkBar 22, mkBar 23,
   mkBar 24, mkBar 25]

/-- Witness for C5 at a concrete oracle and 26-bar series. -/
theorem compute_technical_score_weighting_witness :
    (fun r : TechResult =>
      r.technical_score =
        (0.20 * r.rsi_score + 0.0 * r.macd_score + 0.30 * r.ma_crossover_score +
          0.0 * r.bbands_score + 0.50 * r.momentum_score + 1) / 2 ∧
      0 ≤ r.technical_score ∧ r.technical_score ≤ 1 ∧
      (∀ ta2 : TA, ta2.rsiVal = taNone.rsiVal → ta2.sma50Val = taNone.sma50Val →
        ta2.sma200Val = taNone.sma200Val →
        ∃ r2 : TechResult, compute_technical_score ta2 dfInc = some r2 ∧
          r2.technical_score = r.technical_score))
      { price := 25, rsi_value := none, rsi_score := 0, macd_score := 0,
        ma_crossover_score := 0, bbands_score := 0, momentum_score := 0,
        technical_score := 0.5 } := by
  have hmom : score_momentum
      ([0, 1, 2, 3, 4, 5, 6, 7, 8, 9, 10, 11, 12, 13, 14, 15, 16, 17, 18, 19, 20,
        21, 22, 23, 24, 25] : List ℚ)
      ([0, 1, 2, 3, 4, 5, 6, 7, 8, 9, 10, 11, 12, 13, 14, 15, 16, 17, 18, 19, 20,
        21, 22, 23, 24, 25] : List ℚ) 5 4 = 0 := by
    simp only [score_momentum]
    rw [if_pos (by decide)]
    norm_num
  have hsome : compute_technical_score taNone dfInc =
      some { price := 25, rsi_value := none, rsi_score := 0, macd_score := 0,
             ma_crossover_score := 0, bbands_score := 0, momentum_score := 0,
             technical_score := 0.5 } := by
    simp only [compute_technical_score]
    rw [if_neg (by decide)]
    refine congrArg some ?_
    congr 1
    all_goals
      norm_num [score_rsi, score_macd, score_ma_crossover, score_bbands, taNone,
        hmom, TW_rsi, TW_macd, TW_ma, TW_bb, TW_mom, dfInc, mkBar]
  exact compute_technical_score_weighting taNone dfInc _ hsome

/-! ### Fundamental score aggregator (compute_fundamental_scores) -/

/-- One row of the fundamentals universe table. A `none` entry is a missing /
unparseable (coerced-to-NaN) value. -/
structure FundRow where
  ticker : String
  trailing_pe : Option ℚ
  forward_pe : Option ℚ
  dividend_yield : Option ℚ
  beta : Option ℚ
  market_cap : Option ℚ
  target_median : Option ℚ
  price : Option ℚ
deriving DecidableEq, Inhabited, Repr

/-- The pe column: `df["forward_pe"].fillna(df["trailing_pe"])`, then
`df.loc[df["pe"] <= 0, "pe"] = np.nan`. -/
def peOf (r : FundRow) : Option ℚ :=
  match (match r.forward_pe with | some v => some v | none => r.trailing_pe) with
  | some v => if v ≤ 0 then none else some v
  | none => none

/-- The capped dividend column: `df["dividend_yield"].clip(upper=0.10)` (NaN kept). -/
def divCappedOf (r : FundRow) : Option ℚ :=
  r.dividend_yield.map fun v => pymin v 0.10

/-- The beta-distance column: `(df["beta"] - 1.0).abs()` (NaN kept). -/
def betaDistOf (r : FundRow) : Option ℚ :=
  r.beta.map fun v => |v - 1.0|

/-- The market-cap column. -/
def mcapOf (r : FundRow) : Option ℚ := r.market_cap

/-- The price column after `df.loc[df["price"] <= 0, "price"] = np.nan`. -/
def pricePosOf (r : FundRow) : Option ℚ :=
  match r.price with
  | some v => if v ≤ 0 then none else some v
  | none => none

/-- The target-upside column: `(df["target_median"] - df["price"]) / df["price"]`
(NaN whenever either operand is NaN). -/
def upsideOf (r : FundRow) : Option ℚ :=
  match r.target_median, pricePosOf r with
  | some t, some p => some ((t - p) / p)
  | _, _ => none

/-- Count of non-missing column entries strictly below `v`. -/
def cntLT (col : List (Option ℚ)) (v : ℚ) : ℕ :=
  col.countP fun x => match x with | some w => decide (w < v) | none => false

/-- Count of non-missing column entries equal to `v`. -/
def cntEQ (col : List (Option ℚ)) (v : ℚ) : ℕ :=
  col.countP fun x => match x with | some w => decide (w = v) | none => false

/-- Count of non-missing column entries at most `v`. -/
def cntLE (col : List (Option ℚ)) (v : ℚ) : ℕ :=
  col.countP fun x => match x with | some w => decide (w ≤ v) | none => false

/-- Count of non-missing column entries. -/
def cntValid (col : List (Option ℚ)) : ℕ :=
  col.countP fun x => x.isSome

/-- pandas `Series.rank(pct=True, na_option="keep")` with the default
`method="average"`: each non-missing value receives the average of the ordinal
ranks of its tie group — in closed form
`(count of entries < v) + ((count of entries = v) + 1) / 2` — divided by the
number of non-missing entries; missing entries stay missing. -/
def rankPctAvg (col : List (Option ℚ)) : List (Option ℚ) :=
  col.map fun x => x.map fun v =>
    ((cntLT col v : ℚ) + ((cntEQ col v : ℚ) + 1) / 2) / (cntValid col : ℚ)

/-- One row of the universe table after `compute_fundamental_scores` added the
score columns. -/
structure FundScored where
  ticker : String
  pe : Option ℚ
  pe_score : ℚ
  dividend_score : ℚ
  beta_score : ℚ
  market_cap_score : ℚ
  target_upside : Option ℚ
  target_upside_score : ℚ
  fundamental_score : ℚ
deriving DecidableEq, Inhabited, Repr

/-- `compute_fundamental_scores` from screener.py: cross-sectional percentile
scores over the whole universe, with the documented missing-value defaults. -/
def compute_fundamental_scores (rows : List FundRow) : List FundScored :=
  let peCol := rows.map peOf
  let peRank := rankPctAvg peCol
  let divRank := rankPctAvg (rows.map divCappedOf)
  let betaRank := rankPctAvg (rows.map betaDistOf)
  let mcapRank := rankPctAvg (rows.map mcapOf)
  let upCol := rows.map upsideOf
  let upRank := rankPctAvg upCol
  (List.range rows.length).map fun i =>
    let pe_score := match peRank.getD i none with | some q => 1.0 - q | none => 0.0
    let dividend_score := match divRank.getD i none with | some q => q | none => 0.0
    let beta_score := match betaRank.getD i none with | some q => 1.0 - q | none => 0.5
    let market_cap_score := match mcapRank.getD i none with | some q => q | none => 0.0
    let target_upside_score := match upRank.getD i none with | some q => q | none => 0.0
    { ticker := (rows.getD i default).ticker
      pe := peCol.getD i none
      pe_score := pe_score
      dividend_score := dividend_score
      beta_score := beta_score
      market_cap_score := market_cap_score
      target_upside := upCol.getD i none
      target_upside_score := target_upside_score
      fundamental_score :=
        0.25 * pe_score + 0.20 * dividend_score + 0.15 * beta_score
        + 0.25 * market_cap_score + 0.15 * target_upside_score }

theorem getD_map_col (f : FundRow → Option ℚ) (rows : List FundRow) (i : ℕ)
    (h : i < rows.length) :
    (rows.map f).getD i none = f (rows.getD i default) := by
  rw [List.getD_eq_getElem _ _ (by simp [h]), List.getElem_map,
    List.getD_eq_getElem _ _ h]

theorem compute_fundamental_scores_getD (rows : List FundRow) (i : ℕ)
    (h : i < rows.length) :
    (compute_fundamental_scores rows).getD i default =
      { ticker := (rows.getD i default).ticker
        pe := (rows.map peOf).getD i none
        pe_score := match (rankPctAvg (rows.map peOf)).getD i none with
          | some q => 1.0 - q | none => 0.0
        dividend_score := match (rankPctAvg (rows.map divCappedOf)).getD i none with
          | some q => q | none => 0.0
        beta_score := match (rankPctAvg (rows.map betaDistOf)).getD i none with
          | some q => 1.0 - q | none => 0.5
        market_cap_score := match (rankPctAvg (rows.map mcapOf)).getD i none with
          | some q => q | none => 0.0
        target_upside := (rows.map upsideOf).getD i none
        target_upside_score := match (rankPctAvg (rows.map upsideOf)).getD i none with
          | some q => q | none => 0.0
        fundamental_score :=
          0.25 * (match (rankPctAvg (rows.map peOf)).getD i none with
            | some q => 1.0 - q | none => 0.0)
          + 0.20 * (match (rankPctAvg (rows.map divCappedOf)).getD i none with
            | some q => q | none => 0.0)
          + 0.15 * (match (rankPctAvg (rows.map betaDistOf)).getD i none with
            | some q => 1.0 - q | none => 0.5)
          + 0.25 * (match (rankPctAvg (rows.map mcapOf)).getD i none with
            | some q => q | none => 0.0)
          + 0.15 * (match (rankPctAvg (rows.map upsideOf)).getD i none with
            | some q => q | none => 0.0) } := by
  simp only [compute_fundamental_scores]
  rw [List.getD_eq_getElem _ _ (by simp [h]), List.getElem_map, List.getElem_range]

theorem compute_fundamental_scores_length (rows : List FundRow) :
    (compute_fundamental_scores rows).length = rows.length := by
  simp [compute_fundamental_scores]

theorem rankPctAvg_getD (col : List (Option ℚ)) (i : ℕ) (h : i < col.length) :
    (rankPctAvg col).getD i none =
      (col.getD i none).map fun v =>
        ((cntLT col v : ℚ) + ((cntEQ col v : ℚ) + 1) / 2) / (cntValid col : ℚ) := by
  simp only [rankPctAvg]
  rw [List.getD_eq_getElem _ _ (by simp [h]), List.getElem_map,
    List.getD_eq_getElem _ _ h]

theorem cntLE_eq (col : List (Option ℚ)) (v : ℚ) :
    cntLE col v = cntLT col v + cntEQ col v := by
  induction col with
  | nil => rfl
  | cons x t ih =>
    unfold cntLE cntLT cntEQ at *
    rw [List.countP_cons, List.countP_cons, List.countP_cons, ih]
    cases x with
    | none => simp
    | some w =>
      simp only [decide_eq_true_eq]
      rcases lt_trichotomy w v with h | h | h
      · rw [if_pos (by simpa using h.le), if_pos (by simpa using h),
          if_neg (by simpa using h.ne)]
        omega
      · subst h
        rw [if_pos (by simp), if_neg (by simp), if_pos (by simp)]
        omega
      · rw [if_neg (by simpa using not_le.mpr h), if_neg (by simpa using not_lt.mpr h.le),
          if_neg (by simpa using h.ne.symm)]
        omega

theorem cntLE_le_valid (col : List (Option ℚ)) (v : ℚ) :
    cntLE col v ≤ cntValid col := by
  refine List.countP_mono_left fun x _ hx => ?_
  cases x with
  | none => simp at hx
  | some w => rfl

theorem cntEQ_pos {col : List (Option ℚ)} {v : ℚ} (h : some v ∈ col) :
    1 ≤ cntEQ col v := by
  have : 0 < cntEQ col v := by
    unfold cntEQ
    rw [List.countP_pos_iff]
    exact ⟨some v, h, by simp⟩
  omega

theorem rank_bounds {col : List (Option ℚ)} {v : ℚ} (h : some v ∈ col) :
    0 < ((cntLT col v : ℚ) + ((cntEQ col v : ℚ) + 1) / 2) / (cntValid col : ℚ) ∧
    ((cntLT col v : ℚ) + ((cntEQ col v : ℚ) + 1) / 2) / (cntValid col : ℚ) ≤ 1 := by
  have h1 : 1 ≤ cntEQ col v := cntEQ_pos h
  have h2 : cntLT col v + cntEQ col v ≤ cntValid col := by
    rw [← cntLE_eq]; exact cntLE_le_valid col v
  have h3 : 0 < cntValid col := by omega
  have h3q : (0 : ℚ) < (cntValid col : ℚ) := by exact_mod_cast h3
  have h1q : (1 : ℚ) ≤ (cntEQ col v : ℚ) := by exact_mod_cast h1
  have h2q : (cntLT col v : ℚ) + (cntEQ col v : ℚ) ≤ (cntValid col : ℚ) := by
    exact_mod_cast h2
  have h0q : (0 : ℚ) ≤ (cntLT col v : ℚ) := by positivity
  constructor
  · apply div_pos _ h3q
    linarith
  · rw [div_le_one h3q]
    linarith

theorem rank_match_id_bounds (col : List (Option ℚ)) (i : ℕ) (h : i < col.length) :
    0 ≤ (match (rankPctAvg col).getD i none with | some q => q | none => (0.0 : ℚ)) ∧
    (match (rankPctAvg col).getD i none with | some q => q | none => (0.0 : ℚ)) ≤ 1 := by
  rw [rankPctAvg_getD col i h]
  cases hc : col.getD i none with
  | none => norm_num
  | some v =>
    have hmem : some v ∈ col := by
      rw [List.getD_eq_getElem _ _ h] at hc
      exact hc ▸ List.getElem_mem h
    obtain ⟨hb1, hb2⟩ := rank_bounds hmem
    simp only [Option.map_some']
    exact ⟨le_of_lt hb1, hb2⟩

theorem rank_match_inv_bounds (col : List (Option ℚ)) (i : ℕ) (h : i < col.length)
    (d : ℚ) (hd0 : 0 ≤ d) (hd1 : d ≤ 1) :
    0 ≤ (match (rankPctAvg col).getD i none with | some q => 1.0 - q | none => d) ∧
    (match (rankPctAvg col).getD i none with | some q => 1.0 - q | none => d) ≤ 1 := by
  rw [rankPctAvg_getD col i h]
  cases hc : col.getD i none with
  | none => exact ⟨hd0, hd1⟩
  | some v =>
    have hmem : some v ∈ col := by
      rw [List.getD_eq_getElem _ _ h] at hc
      exact hc ▸ List.getElem_mem h
    obtain ⟨hb1, hb2⟩ := rank_bounds hmem
    simp only [Option.map_some']
    constructor <;> linarith

/-- C7: each output row combines the five sub-scores with weights
0.25/0.20/0.15/0.25/0.15; the result lies in [0, 1]; and the documented per-column
missing-value defaults hold (missing pe → 0, missing beta → 0.5, missing
dividend/market-cap/target-upside inputs → 0). -/
theorem compute_fundamental_scores_combination (rows : List FundRow) (i : ℕ)
    (hi : i < rows.length) :
    (compute_fundamental_scores rows).length = rows.length ∧
    ((compute_fundamental_scores rows).getD i default).fundamental_score =
      0.25 * ((compute_fundamental_scores rows).getD i default).pe_score
      + 0.20 * ((compute_fundamental_scores rows).getD i default).dividend_score
      + 0.15 * ((compute_fundamental_scores rows).getD i default).beta_score
      + 0.25 * ((compute_fundamental_scores rows).getD i default).market_cap_score
      + 0.15 * ((compute_fundamental_scores rows).getD i default).target_upside_score ∧
    0 ≤ ((compute_fundamental_scores rows).getD i default).fundamental_score ∧
    ((compute_fundamental_scores rows).getD i default).fundamental_score ≤ 1 ∧
    (peOf (rows.getD i default) = none →
      ((compute_fundamental_scores rows).getD i default).pe_score = 0) ∧
    ((rows.getD i default).beta = none →
      ((compute_fundamental_scores rows).getD i default).beta_score = 0.5) ∧
    ((rows.getD i default).dividend_yield = none →
      ((compute_fundamental_scores rows).getD i default).dividend_score = 0) ∧
    ((rows.getD i default).market_cap = none →
      ((compute_fundamental_scores rows).getD i default).market_cap_score = 0) ∧
    (upsideOf (rows.getD i default) = none →
      ((compute_fundamental_scores rows).getD i default).target_upside_score = 0) := by
  have hlpe : i < (rows.map peOf).length := by simp [hi]
  have hldiv : i < (rows.map divCappedOf).length := by simp [hi]
  have hlbeta : i < (rows.map betaDistOf).length := by simp [hi]
  have hlmcap : i < (rows.map mcapOf).length := by simp [hi]
  have hlup : i < (rows.map upsideOf).length := by simp [hi]
  obtain ⟨hpe0, hpe1⟩ := rank_match_inv_bounds (rows.map peOf) i hlpe 0.0
    (by norm_num) (by norm_num)
  obtain ⟨hdiv0, hdiv1⟩ := rank_match_id_bounds (rows.map divCappedOf) i hldiv
  obtain ⟨hbeta0, hbeta1⟩ := rank_match_inv_bounds (rows.map betaDistOf) i hlbeta 0.5
    (by norm_num) (by norm_num)
  obtain ⟨hmcap0, hmcap1⟩ := rank_match_id_bounds (rows.map mcapOf) i hlmcap
  obtain ⟨hup0, hup1⟩ := rank_match_id_bounds (rows.map upsideOf) i hlup
  rw [compute_fundamental_scores_getD rows i hi]
  dsimp only
  refine ⟨compute_fundamental_scores_length rows, rfl, ?_, ?_, ?_, ?_, ?_, ?_, ?_⟩
  · linarith
  · linarith
  · intro hnone
    rw [rankPctAvg_getD _ i hlpe, getD_map_col peOf rows i hi, hnone]
    norm_num
  · intro hnone
    have hb : betaDistOf (rows.getD i default) = none := by
      simp only [betaDistOf, hnone, Option.map_none']
    rw [rankPctAvg_getD _ i hlbeta, getD_map_col betaDistOf rows i hi, hb]
    norm_num
  · intro hnone
    have hb : divCappedOf (rows.getD i default) = none := by
      simp only [divCappedOf, hnone, Option.map_none']
    rw [rankPctAvg_getD _ i hldiv, getD_map_col divCappedOf rows i hi, hb]
    norm_num
  · intro hnone
    have hb : mcapOf (rows.getD i default) = none := hnone
    rw [rankPctAvg_getD _ i hlmcap, getD_map_col mcapOf rows i hi, hb]
    norm_num
  · intro hnone
    rw [rankPctAvg_getD _ i hlup, getD_map_col upsideOf rows i hi, hnone]
    norm_num

/-- A fundamentals row with every metric missing. -/
def emptyRow : FundRow := ⟨"A", none, none, none, none, none, none, none⟩

/-- Witness for C7 at a one-row universe with every fundamental missing. -/
theorem compute_fundamental_scores_combination_witness :
    (compute_fundamental_scores [emptyRow]).length = ([emptyRow] : List FundRow).length ∧
    ((compute_fundamental_scores [emptyRow]).getD 0 default).fundamental_score =
      0.25 * ((compute_fundamental_scores [emptyRow]).getD 0 default).pe_score
      + 0.20 * ((compute_fundamental_scores [emptyRow]).getD 0 default).dividend_score
      + 0.15 * ((compute_fundamental_scores [emptyRow]).getD 0 default).beta_score
      + 0.25 * ((compute_fundamental_scores [emptyRow]).getD 0 default).market_cap_score
      + 0.15 * ((compute_fundamental_scores [emptyRow]).getD 0 default).target_upside_score ∧
    0 ≤ ((compute_fundamental_scores [emptyRow]).getD 0 default).fundamental_score ∧
    ((compute_fundamental_scores [emptyRow]).getD 0 default).fundamental_score ≤ 1 ∧
    (peOf (([emptyRow] : List FundRow).getD 0 default) = none →
      ((compute_fundamental_scores [emptyRow]).getD 0 default).pe_score = 0) ∧
    ((([emptyRow] : List FundRow).getD 0 default).beta = none →
      ((compute_fundamental_scores [emptyRow]).getD 0 default).beta_score = 0.5) ∧
    ((([emptyRow] : List FundRow).getD 0 default).dividend_yield = none →
      ((compute_fundamental_scores [emptyRow]).getD 0 default).dividend_score = 0) ∧
    ((([emptyRow] : List FundRow).getD 0 default).market_cap = none →
      ((compute_fundamental_scores [emptyRow]).getD 0 default).market_cap_score = 0) ∧
    (upsideOf (([emptyRow] : List FundRow).getD 0 default) = none →
      ((compute_fundamental_scores [emptyRow]).getD 0 default).target_upside_score = 0) :=
  compute_fundamental_scores_combination [emptyRow] 0 (by decide)

/-- C3 (amended): every percentile rank used by the sub-scores follows pandas
`rank(pct=True, na_option="keep")` with the default average method: a non-missing
column value `v` receives `((count < v) + ((count = v) + 1)/2) / k` over the `k`
non-missing members (so tied values share the same rank, and missing values are
excluded from both numerator and denominator); missing values receive the
documented default score instead of the formula. -/
theorem percentile_rank_spec (rows : List FundRow) (i : ℕ) (hi : i < rows.length) :
    (∀ v, peOf (rows.getD i default) = some v →
      ((compute_fundamental_scores rows).getD i default).pe_score =
        1 - ((cntLT (rows.map peOf) v : ℚ) + ((cntEQ (rows.map peOf) v : ℚ) + 1) / 2) /
          (cntValid (rows.map peOf) : ℚ)) ∧
    (peOf (rows.getD i default) = none →
      ((compute_fundamental_scores rows).getD i default).pe_score = 0) ∧
    (∀ v, divCappedOf (rows.getD i default) = some v →
      ((compute_fundamental_scores rows).getD i default).dividend_score =
        ((cntLT (rows.map divCappedOf) v : ℚ) + ((cntEQ (rows.map divCappedOf) v : ℚ) + 1) / 2) /
          (cntValid (rows.map divCappedOf) : ℚ)) ∧
    (divCappedOf (rows.getD i default) = none →
      ((compute_fundamental_scores rows).getD i default).dividend_score = 0) ∧
    (∀ v, betaDistOf (rows.getD i default) = some v →
      ((compute_fundamental_scores rows).getD i default).beta_score =
        1 - ((cntLT (rows.map betaDistOf) v : ℚ) + ((cntEQ (rows.map betaDistOf) v : ℚ) + 1) / 2) /
          (cntValid (rows.map betaDistOf) : ℚ)) ∧
    (betaDistOf (rows.getD i default) = none →
      ((compute_fundamental_scores rows).getD i default).beta_score = 0.5) ∧
    (∀ v, mcapOf (rows.getD i default) = some v →
      ((compute_fundamental_scores rows).getD i default).market_cap_score =
        ((cntLT (rows.map mcapOf) v : ℚ) + ((cntEQ (rows.map mcapOf) v : ℚ) + 1) / 2) /
          (cntValid (rows.map mcapOf) : ℚ)) ∧
    (mcapOf (rows.getD i default) = none →
      ((compute_fundamental_scores rows).getD i default).market_cap_score = 0) ∧
    (∀ v, upsideOf (rows.getD i default) = some v →
      ((compute_fundamental_scores rows).getD i default).target_upside_score =
        ((cntLT (rows.map upsideOf) v : ℚ) + ((cntEQ (rows.map upsideOf) v : ℚ) + 1) / 2) /
          (cntValid (rows.map upsideOf) : ℚ)) ∧
    (upsideOf (rows.getD i default) = none →
      ((compute_fundamental_scores rows).getD i default).target_upside_score = 0) := by
  have hlpe : i < (rows.map peOf).length := by simp [hi]
  have hldiv : i < (rows.map divCappedOf).length := by simp [hi]
  have hlbeta : i < (rows.map betaDistOf).length := by simp [hi]
  have hlmcap : i < (rows.map mcapOf).length := by simp [hi]
  have hlup : i < (rows.map upsideOf).length := by simp [hi]
  rw [compute_fundamental_scores_getD rows i hi]
  dsimp only
  refine ⟨?_, ?_, ?_, ?_, ?_, ?_, ?_, ?_, ?_, ?_⟩
  · intro v hv
    rw [rankPctAvg_getD _ i hlpe, getD_map_col peOf rows i hi, hv]
    norm_num
  · intro hv
    rw [rankPctAvg_getD _ i hlpe, getD_map_col peOf rows i hi, hv]
    norm_num
  · intro v hv
    rw [rankPctAvg_getD _ i hldiv, getD_map_col divCappedOf rows i hi, hv]
    norm_num
  · intro hv
    rw [rankPctAvg_getD _ i hldiv, getD_map_col divCappedOf rows i hi, hv]
    norm_num
  · intro v hv
    rw [rankPctAvg_getD _ i hlbeta, getD_map_col betaDistOf rows i hi, hv]
    norm_num
  · intro hv
    rw [rankPctAvg_getD _ i hlbeta, getD_map_col betaDistOf rows i hi, hv]
    norm_num
  · intro v hv
    rw [rankPctAvg_getD _ i hlmcap, getD_map_col mcapOf rows i hi, hv]
    norm_num
  · intro hv
    rw [rankPctAvg_getD _ i hlmcap, getD_map_col mcapOf rows i hi, hv]
    norm_num
  · intro v hv
    rw [rankPctAvg_getD _ i hlup, getD_map_col upsideOf rows i hi, hv]
    norm_num
  · intro hv
    rw [rankPctAvg_getD _ i hlup, getD_map_col upsideOf rows i hi, hv]
    norm_num

/-- A three-row universe whose market caps are [1, 1, 2]. -/
def c3rows : List FundRow :=
  [⟨"A", none, none, none, none, some 1, none, none⟩,
   ⟨"B", none, none, none, none, some 1, none, none⟩,
   ⟨"C", none, none, none, none, some 2, none, none⟩]

/-- C3 counterexample: with market caps [1, 1, 2], the code (pandas average-rank
pct) gives row 0 a market_cap_score of 1/2, while the claimed formula
`(count of members ≤ v) / k` predicts 2/3. -/
theorem percentile_rank_counterexample :
    ((compute_fundamental_scores c3rows).getD 0 default).market_cap_score = 1/2 ∧
    ((cntLE (c3rows.map mcapOf) 1 : ℚ) / (cntValid (c3rows.map mcapOf) : ℚ)) = 2/3 ∧
    ((compute_fundamental_scores c3rows).getD 0 default).market_cap_score ≠
      ((cntLE (c3rows.map mcapOf) 1 : ℚ) / (cntValid (c3rows.map mcapOf) : ℚ)) := by
  have hlt : cntLT (c3rows.map mcapOf) 1 = 0 := by decide
  have heq : cntEQ (c3rows.map mcapOf) 1 = 2 := by decide
  have hle : cntLE (c3rows.map mcapOf) 1 = 2 := by decide
  have hval : cntValid (c3rows.map mcapOf) = 3 := by decide
  have h1 : ((compute_fundamental_scores c3rows).getD 0 default).market_cap_score = 1/2 := by
    have hm : mcapOf (c3rows.getD 0 default) = some 1 := rfl
    rw [compute_fundamental_scores_getD c3rows 0 (by decide)]
    dsimp only
    rw [rankPctAvg_getD _ 0 (by decide), getD_map_col mcapOf c3rows 0 (by decide), hm]
    norm_num [hlt, heq, hval]
  have h2 : ((cntLE (c3rows.map mcapOf) 1 : ℚ) / (cntValid (c3rows.map mcapOf) : ℚ)) = 2/3 := by
    rw [hle, hval]
    norm_num
  refine ⟨h1, h2, ?_⟩
  rw [h1, h2]
  norm_num

/-- Witness for the amended C3 at the concrete three-row universe. -/
theorem percentile_rank_spec_witness :
    (∀ v, peOf (c3rows.getD 0 default) = some v →
      ((compute_fundamental_scores c3rows).getD 0 default).pe_score =
        1 - ((cntLT (c3rows.map peOf) v : ℚ) + ((cntEQ (c3rows.map peOf) v : ℚ) + 1) / 2) /
          (cntValid (c3rows.map peOf) : ℚ)) ∧
    (peOf (c3rows.getD 0 default) = none →
      ((compute_fundamental_scores c3rows).getD 0 default).pe_score = 0) ∧
    (∀ v, divCappedOf (c3rows.getD 0 default) = some v →
      ((compute_fundamental_scores c3rows).getD 0 default).dividend_score =
        ((cntLT (c3rows.map divCappedOf) v : ℚ) + ((cntEQ (c3rows.map divCappedOf) v : ℚ) + 1) / 2) /
          (cntValid (c3rows.map divCappedOf) : ℚ)) ∧
    (divCappedOf (c3rows.getD 0 default) = none →
      ((compute_fundamental_scores c3rows).getD 0 default).dividend_score = 0) ∧
    (∀ v, betaDistOf (c3rows.getD 0 default) = some v →
      ((compute_fundamental_scores c3rows).getD 0 default).beta_score =
        1 - ((cntLT (c3rows.map betaDistOf) v : ℚ) + ((cntEQ (c3rows.map betaDistOf) v : ℚ) + 1) / 2) /
          (cntValid (c3rows.map betaDistOf) : ℚ)) ∧
    (betaDistOf (c3rows.getD 0 default) = none →
      ((compute_fundamental_scores c3rows).getD 0 default).beta_score = 0.5) ∧
    (∀ v, mcapOf (c3rows.getD 0 default) = some v →
      ((compute_fundamental_scores c3rows).getD 0 default).market_cap_score =
        ((cntLT (c3rows.map mcapOf) v : ℚ) + ((cntEQ (c3rows.map mcapOf) v : ℚ) + 1) / 2) /
          (cntValid (c3rows.map mcapOf) : ℚ)) ∧
    (mcapOf (c3rows.getD 0 default) = none →
      ((compute_fundamental_scores c3rows).getD 0 default).market_cap_score = 0) ∧
    (∀ v, upsideOf (c3rows.getD 0 default) = some v →
      ((compute_fundamental_scores c3rows).getD 0 default).target_upside_score =
        ((cntLT (c3rows.map upsideOf) v : ℚ) + ((cntEQ (c3rows.map upsideOf) v : ℚ) + 1) / 2) /
          (cntValid (c3rows.map upsideOf) : ℚ)) ∧
    (upsideOf (c3rows.getD 0 default) = none →
      ((compute_fundamental_scores c3rows).getD 0 default).target_upside_score = 0) := by
  exact percentile_rank_spec c3rows 0 (by decide)

/-! ### Universe scorer (score_universe) -/

/-- One row of `db.query_recent_prices` (ordered by (ticker, date)); the date is
modelled by its ordinal. -/
structure PriceRow where
  ticker : String
  date : ℕ
  opn : ℚ
  high : ℚ
  low : ℚ
  close : ℚ
  volume : ℚ
  adj_close : ℚ
deriving DecidableEq, Inhabited, Repr

/-- The per-ticker DataFrame construction: rename columns to OHLCV. -/
def toBar (r : PriceRow) : Bar :=
  ⟨r.opn, r.high, r.low, r.close, r.volume, r.adj_close⟩

/-- One row of `db.query_all_fundamentals` (the tickers table carries no price
column; score_universe joins the latest price on later). -/
structure DbFundRow where
  ticker : String
  trailing_pe : Option ℚ
  forward_pe : Option ℚ
  dividend_yield : Option ℚ
  beta : Option ℚ
  market_cap : Option ℚ
  target_median : Option ℚ
deriving DecidableEq, Inhabited, Repr

/-- Adjoining the merged `price` column to a fundamentals row. -/
def withPrice (f : DbFundRow) (p : Option ℚ) : FundRow :=
  ⟨f.ticker, f.trailing_pe, f.forward_pe, f.dividend_yield, f.beta, f.market_cap,
   f.target_median, p⟩

/-- `itertools.groupby(price_rows, key=ticker)`: consecutive runs of one ticker. -/
def groupRuns : List PriceRow → List (String × List PriceRow)
  | [] => []
  | r :: rest =>
    match groupRuns rest with
    | [] => [(r.ticker, [r])]
    | (t, g) :: gs =>
      if r.ticker = t then (t, r :: g) :: gs else (r.ticker, [r]) :: (t, g) :: gs

/-- Python dict assignment `d[k] = v`: overwrite in place or append. -/
def dictInsert (k : String) (v : List PriceRow) :
    List (String × List PriceRow) → List (String × List PriceRow)
  | [] => [(k, v)]
  | (k', v') :: rest =>
    if k = k' then (k, v) :: rest else (k', v') :: dictInsert k v rest

/-- The dict comprehension `{ticker: list(rows) for ticker, rows in grouped}`. -/
def toDict (l : List (String × List PriceRow)) : List (String × List PriceRow) :=
  l.foldl (fun d p => dictInsert p.1 p.2 d) []

/-- A per-ticker technical result (`result["ticker"] = ticker`). -/
structure TechRow where
  ticker : String
  res : TechResult
deriving DecidableEq, Repr

/-- One row of the final ranked table (score and display columns). -/
structure MergedRow where
  ticker : String
  technical_score : ℚ
  fundamental_score : ℚ
  price : ℚ
  composite_score : ℚ
deriving DecidableEq, Inhabited, Repr

/-- `tdf.set_index("date").sort_index()`: sort the bars by date. -/
def sortOnDate (rows : List PriceRow) : List PriceRow :=
  List.insertionSort (fun a b => a.date ≤ b.date) rows

/-- The technical-scoring loop of `score_universe`: group prices by ticker,
score each group, skip tickers whose score is undefined. -/
def techRows (ta : TA) (price_rows : List PriceRow) : List TechRow :=
  (toDict (groupRuns price_rows)).filterMap fun g =>
    (compute_technical_score ta ((sortOnDate g.2).map toBar)).map fun res => ⟨g.1, res⟩

/-- `score_universe` up to (and including) the composite-score column, before the
final descending sort: normalize weights, guard the three insufficient-data
cases, left-join the latest price onto fundamentals, score fundamentals
cross-sectionally, and inner-join on ticker. -/
def score_universe_merged (ta : TA) (fund_rows : List DbFundRow)
    (price_rows : List PriceRow) (weights : Option Weights) : List MergedRow :=
  let w := weights.getD DEFAULT_WEIGHTS
  let total_w := w.technical + w.fundamental
  let w_tech := w.technical / total_w
  let w_fund := w.fundamental / total_w
  if fund_rows = [] then []
  else if price_rows = [] then []
  else
    let tech_results := techRows ta price_rows
    if tech_results = [] then []
    else
      let fund_with_price := fund_rows.flatMap fun f =>
        match tech_results.filter fun tr => tr.ticker == f.ticker with
        | [] => [withPrice f none]
        | ms => ms.map fun m => withPrice f (some m.res.price)
      let fund_scored := compute_fundamental_scores fund_with_price
      tech_results.flatMap fun t =>
        (fund_scored.filter fun fs => fs.ticker == t.ticker).map fun fs =>
          { ticker := t.ticker
            technical_score := t.res.technical_score
            fundamental_score := fs.fundamental_score
            price := t.res.price
            composite_score :=
              w_tech * t.res.technical_score + w_fund * fs.fundamental_score }

/-- `merged.sort_values("composite_score", ascending=False)`: some permutation of
the rows in descending composite-score order. The source uses pandas nargsort
with numpy's default `kind='quicksort'`, whose order within a group of equal
keys is an implementation detail (numpy does not guarantee stability); this
executable model fixes one concrete such permutation, and no theorem in this
file depends on the order chosen within a tie group (the empty-input guards,
which C9 uses, hold for any permutation). -/
def sortValuesDesc (l : List MergedRow) : List MergedRow :=
  (List.insertionSort (fun a b => a.composite_score ≤ b.composite_score) l.reverse).reverse

/-- `score_universe` from screener.py. -/
def score_universe (ta : TA) (fund_rows : List DbFundRow)
    (price_rows : List PriceRow) (weights : Option Weights) : List MergedRow :=
  sortValuesDesc (score_universe_merged ta fund_rows price_rows weights)

theorem groupRuns_mem_sub :
    ∀ {l : List PriceRow} {t : String} {g : List PriceRow},
      (t, g) ∈ groupRuns l → g.Sublist l := by
  intro l
  induction l with
  | nil => intro t g h; cases h
  | cons r rest ih =>
    intro t g h
    rw [groupRuns] at h
    split at h
    · rcases List.mem_cons.mp h with h | h
      · injection h with h1 h2
        subst h2
        exact (List.nil_sublist rest).cons₂ r
      · cases h
    · rename_i t' g' gs heq
      split at h
      · rcases List.mem_cons.mp h with h | h
        · injection h with h1 h2
          subst h2
          exact (ih (heq ▸ List.mem_cons_self _ _)).cons₂ r
        · exact (ih (heq ▸ List.mem_cons_of_mem _ h)).cons r
      · rcases List.mem_cons.mp h with h | h
        · injection h with h1 h2
          subst h2
          exact (List.nil_sublist rest).cons₂ r
        · exact (ih (heq ▸ h)).cons r

theorem dictInsert_mem {k : String} {v : List PriceRow} {q : String × List PriceRow} :
    ∀ {d : List (String × List PriceRow)},
      q ∈ dictInsert k v d → q = (k, v) ∨ q ∈ d := by
  intro d
  induction d with
  | nil =>
    intro h
    rcases List.mem_cons.mp h with h | h
    · exact Or.inl h
    · cases h
  | cons p rest ih =>
    obtain ⟨k', v'⟩ := p
    intro h
    rw [dictInsert] at h
    by_cases hk : k = k'
    · rw [if_pos hk] at h
      rcases List.mem_cons.mp h with h | h
      · exact Or.inl h
      · exact Or.inr (List.mem_cons_of_mem _ h)
    · rw [if_neg hk] at h
      rcases List.mem_cons.mp h with h | h
      · exact Or.inr (h ▸ List.mem_cons_self _ _)
      · rcases ih h with h | h
        · exact Or.inl h
        · exact Or.inr (List.mem_cons_of_mem _ h)

theorem toDict_mem {q : String × List PriceRow} {l : List (String × List PriceRow)}
    (h : q ∈ toDict l) : q ∈ l := by
  suffices H : ∀ (l d : List (String × List PriceRow)),
      q ∈ l.foldl (fun d p => dictInsert p.1 p.2 d) d → q ∈ d ∨ q ∈ l by
    rcases H l [] h with h' | h'
    · cases h'
    · exact h'
  intro l
  induction l with
  | nil => intro d h; exact Or.inl h
  | cons p rest ih =>
    intro d h
    rw [List.foldl_cons] at h
    rcases ih _ h with h' | h'
    · rcases dictInsert_mem h' with h'' | h''
      · obtain ⟨p1, p2⟩ := p
        exact Or.inr (h'' ▸ List.mem_cons_self _ _)
      · exact Or.inl h''
    · exact Or.inr (List.mem_cons_of_mem _ h')

theorem groupRuns_mem_ticker :
    ∀ {l : List PriceRow} {t : String} {g : List PriceRow},
      (t, g) ∈ groupRuns l → ∀ x ∈ g, x.ticker = t := by
  intro l
  induction l with
  | nil => intro t g h; cases h
  | cons r rest ih =>
    intro t g h
    rw [groupRuns] at h
    split at h
    · rcases List.mem_cons.mp h with h | h
      · injection h with h1 h2
        subst h1; subst h2
        intro x hx
        rcases List.mem_cons.mp hx with hx | hx
        · subst hx; rfl
        · cases hx
      · cases h
    · rename_i t' g' gs heq
      split at h
      · rename_i hr
        rcases List.mem_cons.mp h with h | h
        · injection h with h1 h2
          subst h1; subst h2
          intro x hx
          rcases List.mem_cons.mp hx with hx | hx
          · subst hx; exact hr
          · exact ih (heq ▸ List.mem_cons_self _ _) x hx
        · exact ih (heq ▸ List.mem_cons_of_mem _ h)
      · rcases List.mem_cons.mp h with h | h
        · injection h with h1 h2
          subst h1; subst h2
          intro x hx
          rcases List.mem_cons.mp hx with hx | hx
          · subst hx; rfl
          · cases hx
        · exact ih (heq ▸ h)

theorem group_length_le {l : List PriceRow} {t : String} {g : List PriceRow}
    (h : (t, g) ∈ groupRuns l) :
    g.length ≤ (l.filter fun r => r.ticker == t).length := by
  have hsub := groupRuns_mem_sub h
  have hall := groupRuns_mem_ticker h
  have hg : g.filter (fun r => r.ticker == t) = g :=
    List.filter_eq_self.mpr fun a ha => by
      rw [beq_iff_eq]
      exact hall a ha
  calc g.length = (g.filter fun r => r.ticker == t).length := by rw [hg]
    _ ≤ (l.filter fun r => r.ticker == t).length :=
        (hsub.filter _).length_le

theorem techRows_eq_nil {ta : TA} {price_rows : List PriceRow}
    (h : ∀ t : String, (price_rows.filter fun r => r.ticker == t).length < 26) :
    techRows ta price_rows = [] := by
  rw [techRows, List.filterMap_eq_nil_iff]
  rintro ⟨t, g⟩ hg
  have hmem : (t, g) ∈ groupRuns price_rows := toDict_mem hg
  have hlen : g.length < 26 := lt_of_le_of_lt (group_length_le hmem) (h t)
  have hlen2 : ((sortOnDate g).map toBar).length < 26 := by
    rw [List.length_map, sortOnDate, List.length_insertionSort]
    exact hlen
  rw [compute_technical_score, if_pos hlen2]
  rfl

/-- C9: `score_universe` signals insufficient data by an empty result, never an
exception (the embedding is a total function): an empty fundamentals universe,
an empty recent-price window, and a universe in which no ticker has at least 26
price rows all produce the empty table. -/
theorem score_universe_insufficient (ta : TA) (fund_rows : List DbFundRow)
    (price_rows : List PriceRow) (w : Option Weights) :
    (fund_rows = [] → score_universe ta fund_rows price_rows w = []) ∧
    (price_rows = [] → score_universe ta fund_rows price_rows w = []) ∧
    ((∀ t : String, (price_rows.filter fun r => r.ticker == t).length < 26) →
      score_universe ta fund_rows price_rows w = []) := by
  refine ⟨?_, ?_, ?_⟩
  · intro h
    subst h
    simp [score_universe, score_universe_merged, sortValuesDesc]
  · intro h
    subst h
    by_cases hf : fund_rows = [] <;>
      simp [score_universe, score_universe_merged, sortValuesDesc, hf]
  · intro h
    have ht : techRows ta price_rows = [] := techRows_eq_nil h
    by_cases hf : fund_rows = []
    · simp [score_universe, score_universe_merged, sortValuesDesc, hf]
    · by_cases hp : price_rows = [] <;>
        simp [score_universe, score_universe_merged, sortValuesDesc, hf, hp, ht]

/-- A one-bar price list: no ticker has 26 bars. -/
def shortPrices : List PriceRow := [⟨"A", 0, 1, 1, 1, 1, 1, 1⟩]

/-- Witness for C9: each insufficient-data case at a concrete input. -/
theorem score_universe_insufficient_witness :
    score_universe taNone [] shortPrices none = [] ∧
    score_universe taNone [⟨"A", none, none, none, none, none, none⟩] [] none = [] ∧
    score_universe taNone [⟨"A", none, none, none, none, none, none⟩] shortPrices none = [] :=
  ⟨(score_universe_insufficient taNone [] shortPrices none).1 rfl,
   (score_universe_insufficient taNone [⟨"A", none, none, none, none, none, none⟩]
      [] none).2.1 rfl,
   (score_universe_insufficient taNone [⟨"A", none, none, none, none, none, none⟩]
      shortPrices none).2.2
     (fun t => lt_of_le_of_lt (List.length_filter_le _ _) (by norm_num [shortPrices]))⟩

end StockTrading
